import Mathlib

/-! Verification of the A-PIE import-extraction and enrichment pipeline
(src/utils/core.py and src/web_app.py) against its specification.

Modelling conventions, applied uniformly:
 - Python strings are lists of characters (`Str`).
 - The remote lookup endpoint is an environment `respOf : Str → HttpResponse`
   mapping a symbol name to the response the server would give for it; a
   response is its transport status code plus the texts of the markup nodes
   matched by the selector `.detail-container .content`.
 - The thread pool of `fetch_api_descriptions` delivers completed futures in
   arrival order, which is some permutation of the submitted names; this
   completion order is an explicit `order : List Str` parameter, and theorems
   quantify over every permutation of the candidate list.
 - `pefile.PE` is an external library; its outcome is the explicit
   `parsed : Except Str PE` argument (parse error, or the parsed object with
   its optional `DIRECTORY_ENTRY_IMPORT` attribute).
 - Console printing, the shared `requests.Session`, and temp-file handling are
   side effects with no bearing on any claim and are omitted. -/

namespace APie

/-- Python strings, modelled as lists of characters. -/
abbrev Str := List Char

/-- Characters treated as whitespace by Python `str.strip` and `str.split`
(the ASCII whitespace set; `Char.ofNat 11` and `Char.ofNat 12` are vertical
tab and form feed). -/
def isPyWs (c : Char) : Bool :=
  c == ' ' || c == '\t' || c == '\n' || c == '\r' || c == Char.ofNat 11 || c == Char.ofNat 12

/-- Python `str.strip()`: drop leading and trailing whitespace. -/
def pyStrip (s : Str) : Str :=
  ((s.dropWhile isPyWs).reverse.dropWhile isPyWs).reverse

/-- One response from the remote lookup endpoint as `check_api` consumes it:
the HTTP status code and the `get_text()` of each node matched by the
selector `.detail-container .content` in the response markup. -/
structure HttpResponse where
  status : Nat
  details : List Str

/-- `requests.Response.raise_for_status` raises exactly for the 4xx and 5xx
status codes. -/
def statusRaises (status : Nat) : Bool :=
  decide (400 ≤ status ∧ status < 600)

/-- Message text of the `HTTPError` raised by `raise_for_status` (the exact
wording is immaterial; it is carried into error notifications as `str(e)`). -/
def httpErrorMsg (status : Nat) : Str :=
  Nat.toDigits 10 status ++ [' ', 'E', 'r', 'r', 'o', 'r']

/-- `check_api` (core.py lines 12-32): raise for a non-success transport
status; return `None` when the selected content region has fewer than two
nodes, or when the second node's text is empty after stripping; otherwise
return the singleton dict `{api_name: api_info}`.  The `verbose` flag only
prints to the console and the `session` argument only pools connections, so
neither affects the result and both are omitted here. -/
def check_api (api_name : Str) (resp : HttpResponse) : Except Str (Option (Str × Str)) :=
  if statusRaises resp.status then Except.error (httpErrorMsg resp.status)
  else if resp.details = [] ∨ resp.details.length < 2 then Except.ok none
  else
    let api_info := pyStrip (resp.details.getD 1 [])
    if api_info = [] then Except.ok none
    else Except.ok (some (api_name, api_info))

/-- Python `res.get(k)` on the singleton dict `check_api` returns. -/
def dget (r : Str × Str) (k : Str) : Option Str :=
  if r.1 = k then some r.2 else none

/-- Python `dict.update` with a one-entry dict: overwrite the entry in place
when the key is present, append otherwise (insertion-ordered dict). -/
def dictUpdate : List (Str × Str) → Str → Str → List (Str × Str)
  | [], k, v => [(k, v)]
  | p :: m, k, v => if p.1 = k then (k, v) :: m else p :: dictUpdate m k v

/-- Python dict lookup over the association-list model of a dict. -/
def findVal : List (Str × Str) → Str → Option Str
  | [], _ => none
  | p :: m, k => if p.1 = k then some p.2 else findVal m k

/-- `unique[k] = None` on a dict used as an insertion-ordered set. -/
def dictInsert (u : List Str) (k : Str) : List Str :=
  if k ∈ u then u else u ++ [k]

/-- One call of the `on_progress` callback of `fetch_api_descriptions`:
`on_progress(name, hit, error)` with a hit description, a miss, or an error
message. -/
inductive Progress where
  | hit (name : Str) (desc : Option Str)
  | miss (name : Str)
  | error (name : Str) (msg : Str)

deriving instance DecidableEq for Progress

/-- The symbol name a progress notification is about. -/
def notifName : Progress → Str
  | Progress.hit n _ => n
  | Progress.miss n => n
  | Progress.error n _ => n

/-- Handling of one completed future in the collection loop of
`fetch_api_descriptions` (core.py lines 68-81): a non-`None` result is merged
into `results` and reported as a hit; a `None` result is reported as a miss
only when `verbose`; an exception is reported as an error and leaves
`results` unchanged. -/
def fetchStep (respOf : Str → HttpResponse) (verbose : Bool)
    (acc : List (Str × Str) × List Progress) (name : Str) :
    List (Str × Str) × List Progress :=
  match check_api name (respOf name) with
  | Except.ok (some r) => (dictUpdate acc.1 r.1 r.2, acc.2 ++ [Progress.hit name (dget r name)])
  | Except.ok none => (acc.1, if verbose then acc.2 ++ [Progress.miss name] else acc.2)
  | Except.error e => (acc.1, acc.2 ++ [Progress.error name e])

/-- `fetch_api_descriptions` (core.py lines 56-82): submit one `check_api`
task per name, then fold the completed futures in arrival order.  `order` is
that arrival order (a permutation of the submitted names); `max_workers`
bounds how many lookups are in flight at once, which constrains scheduling
but not the handling of any completion, so it does not occur in the body.
Returns the final `results` dict together with the `on_progress` call
sequence. -/
def fetch_api_descriptions (respOf : Str → HttpResponse) (verbose : Bool)
    (max_workers : Nat) (order : List Str) : List (Str × Str) × List Progress :=
  order.foldl (fetchStep respOf verbose) ([], [])

/-- One imported function entry of one module: `none` when the entry has no
`name` attribute or the name is `None` (an ordinal-only import), `some none`
when the name bytes do not decode as UTF-8 (the exception is swallowed), and
`some (some s)` when the name decodes to `s`. -/
structure ImportEntry where
  imports : List (Option (Option Str))

/-- The parsed PE object as `_collect_import_names` reads it: the
`DIRECTORY_ENTRY_IMPORT` attribute is absent (`none`) when the binary has
no import directory. -/
structure PE where
  DIRECTORY_ENTRY_IMPORT : Option (List ImportEntry)

/-- Body of the inner loop of `_collect_import_names` (core.py lines 40-52)
for a single import entry: skip nameless and undecodable entries, strip the
decoded name, skip it when empty, insert it, and when it ends in `W` (checked
first) or in `A` also insert the counterpart with the last character swapped. -/
def collectStep (unique : List Str) (imp : Option (Option Str)) : List Str :=
  match imp with
  | none => unique
  | some none => unique
  | some (some raw) =>
    let imp_name := pyStrip raw
    if imp_name = [] then unique
    else
      let u1 := dictInsert unique imp_name
      if imp_name.getLast? = some 'W' then dictInsert u1 (imp_name.dropLast ++ ['A'])
      else if imp_name.getLast? = some 'A' then dictInsert u1 (imp_name.dropLast ++ ['W'])
      else u1

/-- `_collect_import_names` (core.py lines 35-53): fold `collectStep` over
every import of every module of `getattr(pe, "DIRECTORY_ENTRY_IMPORT", [])`. -/
def _collect_import_names (pe : PE) : List Str :=
  (pe.DIRECTORY_ENTRY_IMPORT.getD []).foldl
    (fun unique entry => entry.imports.foldl collectStep unique) []

/-- `analyze_pe` (core.py lines 85-96): `pefile.PE` raising propagates to the
caller (modelled by the `Except` input); otherwise collect the unique import
names and fetch their descriptions.  `order` is the completion order of the
fetch over the collected names. -/
def analyze_pe (parsed : Except Str PE) (respOf : Str → HttpResponse)
    (verbose : Bool) (order : List Str) : Except Str (List (Str × Str)) :=
  match parsed with
  | Except.error e => Except.error e
  | Except.ok _pe => Except.ok (fetch_api_descriptions respOf verbose 12 order).1

/-- One server-push line of the streaming analysis. -/
inductive Event where
  | meta (total : Nat)
  | hit (name : Str) (desc : Option Str)
  | log (line : Str)
  | done

deriving instance DecidableEq for Event

/-- Payload of a miss log line, `f"{name} miss"`. -/
def missLine (name : Str) : Str := name ++ [' ', 'm', 'i', 's', 's']

/-- Payload of an error log line, `f"{name} ERROR: {e}"`. -/
def errorLine (name : Str) (msg : Str) : Str :=
  name ++ [' ', 'E', 'R', 'R', 'O', 'R', ':', ' '] ++ msg

/-- Events yielded for one completed future inside the streaming loop of
`stream_analyze_uploaded_pe_bytes` (core.py lines 148-159). -/
def streamStep (respOf : Str → HttpResponse) (verbose : Bool)
    (evs : List Event) (name : Str) : List Event :=
  match check_api name (respOf name) with
  | Except.ok (some r) => evs ++ [Event.hit name (dget r name)]
  | Except.ok none => if verbose then evs ++ [Event.log (missLine name)] else evs
  | Except.error e => evs ++ [Event.log (errorLine name e)]

/-- `stream_analyze_uploaded_pe_bytes` (core.py lines 114-167): a parse
failure raises before the first `yield`, so the generator produces no event
and the exception propagates (the `Except.error` outcome); otherwise the
stream is one `meta` event carrying the candidate count, the per-future
events in completion order, and a final `done`. -/
def stream_analyze_uploaded_pe_bytes (parsed : Except Str PE)
    (respOf : Str → HttpResponse) (verbose : Bool) (order : List Str) :
    Except Str (List Event) :=
  match parsed with
  | Except.error e => Except.error e
  | Except.ok pe =>
    let unique := _collect_import_names pe
    Except.ok (Event.meta unique.length :: (order.foldl (streamStep respOf verbose) [] ++ [Event.done]))

/-- The JSON `api` field of a `/api/lookup` request body: absent (or `null`),
a string, an array whose items may or may not be strings, or a truthy value
of any other type. -/
inductive ApiField where
  | missing
  | str (s : Str)
  | list (items : List (Option Str))
  | other

/-- Python truthiness of the `api` field as `if not api_field` tests it. -/
def pyFalsy : ApiField → Bool
  | ApiField.missing => true
  | ApiField.str s => s.isEmpty
  | ApiField.list items => items.isEmpty
  | ApiField.other => false

/-- Python `str.replace` for a one-character pattern. -/
def pyReplaceChar (s : Str) (a b : Char) : Str :=
  s.map (fun c => if c = a then b else c)

/-- Python `str.split()` with no separator: split on whitespace runs,
discarding empty pieces. -/
def pySplit (s : Str) : List Str :=
  (List.splitOnP isPyWs s).filter (fun t => !t.isEmpty)

/-- Tokenization of one symbol string in `api_lookup` (web_app.py lines
28-30): map newlines, tabs and commas to spaces, split on whitespace, keep
the non-empty tokens. -/
def pyTokens (s : Str) : List Str :=
  (pySplit (pyReplaceChar (pyReplaceChar (pyReplaceChar s '\n' ' ') '\t' ' ') ',' ' ')).filter
    (fun t => !t.isEmpty)

/-- The 400 message for a falsy `api` field (exact wording immaterial). -/
def missingApiMsg : Str := ['m', 'i', 's', 's', 'i', 'n', 'g', ' ', 'a', 'p', 'i']

/-- The 400 message for an `api` field of the wrong type. -/
def invalidApiMsg : Str := ['i', 'n', 'v', 'a', 'l', 'i', 'd', ' ', 'a', 'p', 'i']

/-- Response of the `/api/lookup` route: a 400 rejection or a results dict. -/
inductive LookupResp where
  | badRequest (msg : Str)
  | results (r : List (Str × Str))

deriving instance DecidableEq for LookupResp

/-- `api_lookup` (web_app.py lines 16-42): reject a falsy `api` field with a
400; tokenize a string field, or every string item of a list field; return
an empty results dict without running the fetch when no token remains;
otherwise run `fetch_api_descriptions` with `verbose=False`.  `order` is the
completion order of that fetch. -/
def api_lookup (field : ApiField) (respOf : Str → HttpResponse)
    (order : List Str) : LookupResp :=
  if pyFalsy field then LookupResp.badRequest missingApiMsg
  else
    match field with
    | ApiField.list items =>
      let names := items.foldr
        (fun it acc => (match it with | some s => pyTokens s | none => []) ++ acc) []
      if names.isEmpty then LookupResp.results []
      else LookupResp.results (fetch_api_descriptions respOf false 12 order).1
    | ApiField.str s =>
      let names := pyTokens s
      if names.isEmpty then LookupResp.results []
      else LookupResp.results (fetch_api_descriptions respOf false 12 order).1
    | _ => LookupResp.badRequest invalidApiMsg

/-! Derived views of the definitions above, used to state and prove the
claims: the report-only and notification-only projections of a fetch step,
the flattened import list of a PE, and the textual A/W counterpart. -/

/-- The effect of one completed future on the `results` dict alone. -/
def reportStep (respOf : Str → HttpResponse) (results : List (Str × Str))
    (name : Str) : List (Str × Str) :=
  match check_api name (respOf name) with
  | Except.ok (some r) => dictUpdate results r.1 r.2
  | _ => results

/-- The `on_progress` calls one completed future triggers (one call, except
that a miss is silent when not verbose). -/
def notifOf (respOf : Str → HttpResponse) (verbose : Bool) (name : Str) :
    List Progress :=
  match check_api name (respOf name) with
  | Except.ok (some r) => [Progress.hit name (dget r name)]
  | Except.ok none => if verbose then [Progress.miss name] else []
  | Except.error e => [Progress.error name e]

/-- The description a lookup would contribute for `name`, if any. -/
def hitVal (respOf : Str → HttpResponse) (name : Str) : Option Str :=
  match check_api name (respOf name) with
  | Except.ok (some r) => some r.2
  | _ => none

/-- Concatenation of the images of a list, by structural recursion. -/
def catMap {α β : Type} (g : α → List β) : List α → List β
  | [] => []
  | a :: l => g a ++ catMap g l

/-- The stripped name an import entry contributes, if any: `none` for
ordinal-only, undecodable, and whitespace-only entries. -/
def extractName (imp : Option (Option Str)) : Option Str :=
  match imp with
  | some (some raw) => if pyStrip raw = [] then none else some (pyStrip raw)
  | _ => none

/-- All import entries of all modules of a PE, flattened. -/
def flatImports (pe : PE) : List (Option (Option Str)) :=
  catMap (fun e => e.imports) (pe.DIRECTORY_ENTRY_IMPORT.getD [])

/-- The stripped, non-empty, decoded import names of a PE, in order and with
duplicates (the candidate set before deduplication and A/W expansion). -/
def namedImports (pe : PE) : List Str :=
  (flatImports pe).filterMap extractName

/-- The name ends in the ANSI or the Wide suffix letter. -/
abbrev endsAW (s : Str) : Prop :=
  s.getLast? = some 'A' ∨ s.getLast? = some 'W'

/-- The A/W counterpart the heuristic synthesizes for a name ending in `A`
or `W`: the last character swapped for the other suffix letter (`W` is
checked first, exactly as in the source). -/
def awCounterpart (s : Str) : Str :=
  if s.getLast? = some 'W' then s.dropLast ++ ['A'] else s.dropLast ++ ['W']

/-- Recognizer for `meta` events. -/
def isMetaEv : Event → Bool
  | Event.meta _ => true
  | _ => false

/-- Recognizer for `done` events. -/
def isDoneEv : Event → Bool
  | Event.done => true
  | _ => false

/-! Concrete fixtures used by witnesses and counterexamples. -/

/-- A remote source that knows no symbol (no content region in any page). -/
def respMiss : Str → HttpResponse := fun _ => ⟨200, []⟩

/-- A remote source that describes every symbol as `d`. -/
def respHit : Str → HttpResponse := fun _ => ⟨200, [['x'], ['d']]⟩

/-- A remote source that fails every request with a 500. -/
def respErr : Str → HttpResponse := fun _ => ⟨500, []⟩

/-- A response whose second content node is blank after stripping. -/
def respBlank : HttpResponse := ⟨200, [['x'], [' ']]⟩

/-- The sample name `XW`. -/
def nameXW : Str := ['X', 'W']

/-- The sample name `XA`. -/
def nameXA : Str := ['X', 'A']

/-- A PE importing exactly the name `XW`. -/
def peXW : PE := ⟨some [⟨[some (some nameXW)]⟩]⟩

/-- A PE importing exactly the one-letter name `W`. -/
def peW : PE := ⟨some [⟨[some (some (['W'] : Str))]⟩]⟩

/-- A PE whose only import is ordinal-only (no name to look up). -/
def peOrdinal : PE := ⟨some [⟨[none]⟩]⟩

/-! Lemmas about the dict models. -/

theorem findVal_dictUpdate (m : List (Str × Str)) (k v n : Str) :
    findVal (dictUpdate m k v) n = if n = k then some v else findVal m n := by
  induction m with
  | nil =>
    by_cases h : n = k
    · subst h; simp [dictUpdate, findVal]
    · have h2 : ¬ k = n := fun hh => h hh.symm
      simp [dictUpdate, findVal, h, h2]
  | cons p m ih =>
    by_cases hpk : p.1 = k
    · by_cases hnk : n = k
      · subst hnk; simp [dictUpdate, findVal, hpk]
      · have h2 : ¬ k = n := fun hh => hnk hh.symm
        have h3 : ¬ p.1 = n := fun hh => hnk (hpk.symm.trans hh).symm
        simp [dictUpdate, findVal, hpk, hnk, h2, h3]
    · simp only [dictUpdate, if_neg hpk]
      by_cases hnp : p.1 = n
      · have hnk : ¬ n = k := fun h => hpk (hnp.symm ▸ h)
        simp [findVal, hnp, hnk]
      · simp [findVal, hnp, ih]

theorem mem_dictUpdate (m : List (Str × Str)) (k v : Str) (q : Str × Str)
    (h : q ∈ dictUpdate m k v) : q ∈ m ∨ q = (k, v) := by
  induction m with
  | nil => simpa [dictUpdate] using h
  | cons p m ih =>
    by_cases hpk : p.1 = k
    · simp only [dictUpdate, if_pos hpk] at h
      rcases List.mem_cons.mp h with h | h
      · exact Or.inr h
      · exact Or.inl (List.mem_cons_of_mem _ h)
    · simp only [dictUpdate, if_neg hpk] at h
      rcases List.mem_cons.mp h with h | h
      · exact Or.inl (h ▸ List.mem_cons_self _ _)
      · rcases ih h with h | h
        · exact Or.inl (List.mem_cons_of_mem _ h)
        · exact Or.inr h

theorem keys_dictUpdate_mem (m : List (Str × Str)) (k v : Str) (x : Str) :
    x ∈ (dictUpdate m k v).map Prod.fst ↔ x ∈ m.map Prod.fst ∨ x = k := by
  induction m with
  | nil => simp [dictUpdate]
  | cons p m ih =>
    by_cases hpk : p.1 = k
    · simp only [dictUpdate, if_pos hpk, List.map_cons, List.mem_cons]
      constructor
      · rintro (rfl | h)
        · exact Or.inr rfl
        · exact Or.inl (Or.inr h)
      · rintro ((rfl | h) | rfl)
        · exact Or.inl hpk
        · exact Or.inr h
        · exact Or.inl rfl
    · simp only [dictUpdate, if_neg hpk, List.map_cons, List.mem_cons, ih]
      tauto

theorem keys_dictUpdate_nodup (m : List (Str × Str)) (k v : Str)
    (h : (m.map Prod.fst).Nodup) : ((dictUpdate m k v).map Prod.fst).Nodup := by
  induction m with
  | nil => simp [dictUpdate]
  | cons p m ih =>
    rcases List.nodup_cons.mp h with ⟨hp, hm⟩
    by_cases hpk : p.1 = k
    · simp only [dictUpdate, if_pos hpk, List.map_cons]
      exact List.nodup_cons.mpr ⟨hpk ▸ hp, hm⟩
    · simp only [dictUpdate, if_neg hpk, List.map_cons]
      refine List.nodup_cons.mpr ⟨?_, ih hm⟩
      intro hx
      rcases (keys_dictUpdate_mem m k v p.1).mp hx with hx | hx
      · exact hp hx
      · exact hpk hx

theorem mem_dictInsert (u : List Str) (k n : Str) :
    n ∈ dictInsert u k ↔ n ∈ u ∨ n = k := by
  unfold dictInsert
  split
  · rename_i hk
    constructor
    · exact Or.inl
    · rintro (h | rfl)
      · exact h
      · exact hk
  · simp [List.mem_append]

/-! Lemmas about check_api and the fetch fold. -/

theorem check_api_hit (name : Str) (resp : HttpResponse) (r : Str × Str)
    (h : check_api name resp = Except.ok (some r)) :
    r = (name, pyStrip (resp.details.getD 1 [])) ∧ r.2 ≠ [] := by
  unfold check_api at h
  split at h
  · exact absurd h (by simp)
  · split at h
    · exact absurd h (by simp)
    · simp only [] at h
      split at h
      · exact absurd h (by simp)
      · rename_i hinfo
        have hr : (name, pyStrip (resp.details.getD 1 [])) = r := by
          simpa using h
        refine ⟨hr.symm, ?_⟩
        rw [← hr]
        exact hinfo

theorem fetchStep_eq (respOf : Str → HttpResponse) (verbose : Bool)
    (acc : List (Str × Str) × List Progress) (name : Str) :
    fetchStep respOf verbose acc name =
      (reportStep respOf acc.1 name, acc.2 ++ notifOf respOf verbose name) := by
  unfold fetchStep reportStep notifOf
  cases h : check_api name (respOf name) with
  | ok o =>
    cases o with
    | none => cases verbose <;> simp
    | some r => rfl
  | error e => rfl

theorem fetch_fold (respOf : Str → HttpResponse) (verbose : Bool)
    (order : List Str) :
    ∀ acc : List (Str × Str) × List Progress,
      order.foldl (fetchStep respOf verbose) acc =
        (order.foldl (reportStep respOf) acc.1,
         acc.2 ++ catMap (notifOf respOf verbose) order) := by
  induction order with
  | nil => intro acc; simp [catMap]
  | cons a l ih =>
    intro acc
    simp only [List.foldl_cons, catMap]
    rw [fetchStep_eq, ih]
    simp

theorem fetch_spec (respOf : Str → HttpResponse) (verbose : Bool)
    (w : Nat) (order : List Str) :
    fetch_api_descriptions respOf verbose w order =
      (order.foldl (reportStep respOf) [],
       catMap (notifOf respOf verbose) order) := by
  unfold fetch_api_descriptions
  rw [fetch_fold]
  rfl

theorem findVal_reportStep (respOf : Str → HttpResponse)
    (results : List (Str × Str)) (a n : Str) :
    findVal (reportStep respOf results a) n =
      if n = a ∧ (hitVal respOf a).isSome then hitVal respOf a
      else findVal results n := by
  unfold reportStep hitVal
  cases h : check_api a (respOf a) with
  | ok o =>
    cases o with
    | none => simp
    | some r =>
      have hr := check_api_hit a (respOf a) r h
      have hr1 : r.1 = a := by rw [hr.1]
      rw [findVal_dictUpdate, hr1]
      by_cases hn : n = a <;> simp [hn]
  | error e => simp

theorem findVal_fold (respOf : Str → HttpResponse) (order : List Str) :
    ∀ (init : List (Str × Str)) (n : Str),
      findVal (order.foldl (reportStep respOf) init) n =
        if n ∈ order ∧ (hitVal respOf n).isSome then hitVal respOf n
        else findVal init n := by
  induction order with
  | nil => intro init n; simp
  | cons a l ih =>
    intro init n
    simp only [List.foldl_cons]
    rw [ih]
    by_cases hmem : n ∈ l ∧ (hitVal respOf n).isSome
    · rw [if_pos hmem, if_pos ⟨List.mem_cons_of_mem a hmem.1, hmem.2⟩]
    · rw [if_neg hmem, findVal_reportStep]
      by_cases hna : n = a
      · subst hna
        by_cases hs : (hitVal respOf n).isSome
        · simp [hs]
        · simp [hs]
      · have hcond : ¬ (n = a ∧ (hitVal respOf a).isSome) := fun hc => hna hc.1
        rw [if_neg hcond]
        have hcons : ¬ (n ∈ a :: l ∧ (hitVal respOf n).isSome) := by
          rintro ⟨hin, hsome⟩
          rcases List.mem_cons.mp hin with rfl | hin
          · exact hna rfl
          · exact hmem ⟨hin, hsome⟩
        rw [if_neg hcons]

theorem mem_report_fold (respOf : Str → HttpResponse) (order : List Str) :
    ∀ (init : List (Str × Str)) (p : Str × Str),
      p ∈ order.foldl (reportStep respOf) init →
      p ∈ init ∨ ∃ nm, nm ∈ order ∧ check_api nm (respOf nm) = Except.ok (some p) := by
  induction order with
  | nil => intro init p h; exact Or.inl h
  | cons a l ih =>
    intro init p h
    simp only [List.foldl_cons] at h
    rcases ih (reportStep respOf init a) p h with h | ⟨nm, hnm, hc⟩
    · unfold reportStep at h
      revert h
      split
      · rename_i r hr
        intro h
        rcases mem_dictUpdate init r.1 r.2 p h with h | rfl
        · exact Or.inl h
        · exact Or.inr ⟨a, List.mem_cons_self a l, by simpa using hr⟩
      · exact fun h => Or.inl h
    · exact Or.inr ⟨nm, List.mem_cons_of_mem a hnm, hc⟩

theorem nodup_keys_fold (respOf : Str → HttpResponse) (order : List Str) :
    ∀ init : List (Str × Str), (init.map Prod.fst).Nodup →
      ((order.foldl (reportStep respOf) init).map Prod.fst).Nodup := by
  induction order with
  | nil => intro init h; exact h
  | cons a l ih =>
    intro init h
    simp only [List.foldl_cons]
    refine ih _ ?_
    unfold reportStep
    split
    · exact keys_dictUpdate_nodup init _ _ h
    · exact h

/-! Lemmas about the notification trace. -/

theorem notifName_of_mem (respOf : Str → HttpResponse) (verbose : Bool)
    (nm : Str) (ev : Progress) (h : ev ∈ notifOf respOf verbose nm) :
    notifName ev = nm := by
  unfold notifOf at h
  revert h
  split
  · intro h
    rcases List.mem_singleton.mp h with rfl
    rfl
  · cases verbose <;> intro h
    · exact absurd h (by simp)
    · rcases List.mem_singleton.mp (by simpa using h) with rfl
      rfl
  · intro h
    rcases List.mem_singleton.mp h with rfl
    rfl

theorem filter_notifOf (respOf : Str → HttpResponse) (verbose : Bool)
    (nm name : Str) :
    (notifOf respOf verbose nm).filter (fun ev => notifName ev == name) =
      if nm = name then notifOf respOf verbose nm else [] := by
  by_cases hn : nm = name
  · rw [if_pos hn]
    refine List.filter_eq_self.mpr ?_
    intro ev hev
    simpa [notifName_of_mem respOf verbose nm ev hev] using hn
  · rw [if_neg hn]
    refine List.filter_eq_nil_iff.mpr ?_
    intro ev hev
    simp [notifName_of_mem respOf verbose nm ev hev, hn]

theorem filter_catMap {α β : Type} (p : β → Bool) (g : α → List β) (l : List α) :
    (catMap g l).filter p = catMap (fun a => (g a).filter p) l := by
  induction l with
  | nil => rfl
  | cons a l ih => simp [catMap, List.filter_append, ih]

theorem catMap_eq_nil {α β : Type} (g : α → List β) (l : List α)
    (h : ∀ a ∈ l, g a = []) : catMap g l = [] := by
  induction l with
  | nil => rfl
  | cons a l ih =>
    simp only [catMap, h a (List.mem_cons_self a l)]
    exact ih (fun a ha => h a (List.mem_cons_of_mem _ ha))

theorem catMap_single {α β : Type} (g : α → List β) (x : α) (l : List α)
    (hnd : l.Nodup) (hx : x ∈ l) (hz : ∀ a ∈ l, a ≠ x → g a = []) :
    catMap g l = g x := by
  induction l with
  | nil => exact absurd hx (List.not_mem_nil x)
  | cons a l ih =>
    rcases List.nodup_cons.mp hnd with ⟨ha, hl⟩
    rcases List.mem_cons.mp hx with rfl | hx
    · have : catMap g l = [] := by
        refine catMap_eq_nil g l ?_
        intro b hb
        exact hz b (List.mem_cons_of_mem _ hb) (fun hbx => ha (hbx ▸ hb))
      simp [catMap, this]
    · have hax : a ≠ x := fun h => ha (h ▸ hx)
      simp only [catMap, hz a (List.mem_cons_self a l) hax, List.nil_append]
      exact ih hl hx (fun b hb => hz b (List.mem_cons_of_mem _ hb))

/-! Lemmas about the import-name collection. -/

theorem foldl_catMap {α β γ : Type} (f : γ → β → γ) (g : α → List β)
    (l : List α) :
    ∀ init : γ,
      l.foldl (fun acc a => (g a).foldl f acc) init = (catMap g l).foldl f init := by
  induction l with
  | nil => intro init; rfl
  | cons a l ih =>
    intro init
    simp only [List.foldl_cons, catMap, List.foldl_append]
    exact ih _

theorem collect_eq_foldl (pe : PE) :
    _collect_import_names pe = (flatImports pe).foldl collectStep [] := by
  unfold _collect_import_names flatImports
  exact foldl_catMap collectStep (fun e : ImportEntry => e.imports)
    (pe.DIRECTORY_ENTRY_IMPORT.getD []) []

theorem collectStep_of_extract_none (u : List Str) (imp : Option (Option Str))
    (h : extractName imp = none) : collectStep u imp = u := by
  match imp with
  | none => rfl
  | some none => rfl
  | some (some raw) =>
    simp only [extractName] at h
    by_cases hemp : pyStrip raw = []
    · simp [collectStep, hemp]
    · rw [if_neg hemp] at h
      exact absurd h (by simp)

theorem mem_collectStep (u : List Str) (n : Str) (imp : Option (Option Str)) :
    n ∈ collectStep u imp ↔
      n ∈ u ∨ ∃ m, extractName imp = some m ∧
        (n = m ∨ (endsAW m ∧ n = awCounterpart m)) := by
  match imp with
  | none => simp [collectStep, extractName]
  | some none => simp [collectStep, extractName]
  | some (some raw) =>
    simp only [collectStep, extractName]
    by_cases hemp : pyStrip raw = []
    · simp [hemp]
    · simp only [if_neg hemp, Option.some.injEq]
      by_cases hW : (pyStrip raw).getLast? = some 'W'
      · have hcp : (pyStrip raw).dropLast ++ ['A'] = awCounterpart (pyStrip raw) := by
          unfold awCounterpart; rw [if_pos hW]
        rw [if_pos hW, hcp]
        simp only [mem_dictInsert]
        constructor
        · rintro ((h | rfl) | rfl)
          · exact Or.inl h
          · exact Or.inr ⟨pyStrip raw, rfl, Or.inl rfl⟩
          · exact Or.inr ⟨pyStrip raw, rfl, Or.inr ⟨Or.inr hW, rfl⟩⟩
        · rintro (h | ⟨m, rfl, hrest⟩)
          · exact Or.inl (Or.inl h)
          · rcases hrest with rfl | ⟨_, rfl⟩
            · exact Or.inl (Or.inr rfl)
            · exact Or.inr rfl
      · rw [if_neg hW]
        by_cases hA : (pyStrip raw).getLast? = some 'A'
        · have hcp : (pyStrip raw).dropLast ++ ['W'] = awCounterpart (pyStrip raw) := by
            unfold awCounterpart; rw [if_neg hW]
          rw [if_pos hA, hcp]
          simp only [mem_dictInsert]
          constructor
          · rintro ((h | rfl) | rfl)
            · exact Or.inl h
            · exact Or.inr ⟨pyStrip raw, rfl, Or.inl rfl⟩
            · exact Or.inr ⟨pyStrip raw, rfl, Or.inr ⟨Or.inl hA, rfl⟩⟩
          · rintro (h | ⟨m, rfl, hrest⟩)
            · exact Or.inl (Or.inl h)
            · rcases hrest with rfl | ⟨_, rfl⟩
              · exact Or.inl (Or.inr rfl)
              · exact Or.inr rfl
        · rw [if_neg hA]
          simp only [mem_dictInsert]
          constructor
          · rintro (h | rfl)
            · exact Or.inl h
            · exact Or.inr ⟨pyStrip raw, rfl, Or.inl rfl⟩
          · rintro (h | ⟨m, rfl, hrest⟩)
            · exact Or.inl h
            · rcases hrest with rfl | ⟨hAW, rfl⟩
              · exact Or.inr rfl
              · rcases hAW with hA2 | hW2
                · exact absurd hA2 hA
                · exact absurd hW2 hW

theorem mem_collect_fold (l : List (Option (Option Str))) :
    ∀ (u : List Str) (n : Str),
      n ∈ l.foldl collectStep u ↔
        n ∈ u ∨ ∃ m, m ∈ l.filterMap extractName ∧
          (n = m ∨ (endsAW m ∧ n = awCounterpart m)) := by
  induction l with
  | nil => intro u n; simp
  | cons imp l ih =>
    intro u n
    simp only [List.foldl_cons]
    rw [ih, mem_collectStep]
    cases himp : extractName imp with
    | none => simp [List.filterMap_cons, himp]
    | some m0 =>
      simp only [List.filterMap_cons, himp, List.mem_cons, Option.some.injEq]
      constructor
      · rintro ((h | ⟨m, rfl, hrest⟩) | ⟨m, hm, hrest⟩)
        · exact Or.inl h
        · exact Or.inr ⟨m0, Or.inl rfl, hrest⟩
        · exact Or.inr ⟨m, Or.inr hm, hrest⟩
      · rintro (h | ⟨m, (rfl | hm), hrest⟩)
        · exact Or.inl (Or.inl h)
        · exact Or.inl (Or.inr ⟨m, rfl, hrest⟩)
        · exact Or.inr ⟨m, hm, hrest⟩

theorem mem_collect_iff (pe : PE) (n : Str) :
    n ∈ _collect_import_names pe ↔
      ∃ m, m ∈ namedImports pe ∧ (n = m ∨ (endsAW m ∧ n = awCounterpart m)) := by
  rw [collect_eq_foldl, mem_collect_fold]
  unfold namedImports
  simp

theorem collect_empty (pe : PE) (h : namedImports pe = []) :
    _collect_import_names pe = [] := by
  rw [collect_eq_foldl]
  have hall : ∀ imp ∈ flatImports pe, extractName imp = none := by
    intro imp hm
    cases he : extractName imp with
    | none => rfl
    | some s =>
      exfalso
      have : s ∈ namedImports pe := List.mem_filterMap.mpr ⟨imp, hm, he⟩
      rw [h] at this
      exact absurd this (List.not_mem_nil s)
  have : ∀ l : List (Option (Option Str)), (∀ imp ∈ l, extractName imp = none) →
      l.foldl collectStep [] = [] := by
    intro l
    induction l with
    | nil => intro _; rfl
    | cons imp l ih =>
      intro hl
      simp only [List.foldl_cons,
        collectStep_of_extract_none [] imp (hl imp (List.mem_cons_self imp l))]
      exact ih (fun i hi => hl i (List.mem_cons_of_mem _ hi))
  exact this _ hall

/-! Lemmas about last characters, for the counterpart involution. -/

theorem getLast?_concat_eq {α : Type} (xs : List α) (c : α) :
    (xs ++ [c]).getLast? = some c := by
  simp [List.getLast?_concat]

theorem dropLast_concat_eq {α : Type} (xs : List α) (c : α) :
    (xs ++ [c]).dropLast = xs := by
  simp

theorem eq_dropLast_concat (s : Str) (c : Char) (h : s.getLast? = some c) :
    s.dropLast ++ [c] = s := by
  have hne : s ≠ [] := by
    intro hnil
    rw [hnil] at h
    exact absurd h (by simp)
  have hc : s.getLast hne = c := by
    rw [List.getLast?_eq_getLast s hne] at h
    exact Option.some.inj h
  rw [← hc]
  exact List.dropLast_append_getLast hne

/-! Further derived lemmas: fetch projections, stream body, counterpart
involution, catMap membership. -/

theorem fetch_report (respOf : Str → HttpResponse) (verbose : Bool)
    (w : Nat) (order : List Str) :
    (fetch_api_descriptions respOf verbose w order).1 =
      order.foldl (reportStep respOf) [] := by
  rw [fetch_spec]

theorem fetch_trace (respOf : Str → HttpResponse) (verbose : Bool)
    (w : Nat) (order : List Str) :
    (fetch_api_descriptions respOf verbose w order).2 =
      catMap (notifOf respOf verbose) order := by
  rw [fetch_spec]

/-- The events one completed future contributes to the stream. -/
def streamEvOf (respOf : Str → HttpResponse) (verbose : Bool) (name : Str) :
    List Event :=
  match check_api name (respOf name) with
  | Except.ok (some r) => [Event.hit name (dget r name)]
  | Except.ok none => if verbose then [Event.log (missLine name)] else []
  | Except.error e => [Event.log (errorLine name e)]

theorem streamStep_eq (respOf : Str → HttpResponse) (verbose : Bool)
    (evs : List Event) (name : Str) :
    streamStep respOf verbose evs name = evs ++ streamEvOf respOf verbose name := by
  unfold streamStep streamEvOf
  cases check_api name (respOf name) with
  | ok o =>
    cases o with
    | none => cases verbose <;> simp
    | some r => rfl
  | error e => rfl

theorem stream_fold (respOf : Str → HttpResponse) (verbose : Bool)
    (order : List Str) :
    ∀ evs : List Event,
      order.foldl (streamStep respOf verbose) evs =
        evs ++ catMap (streamEvOf respOf verbose) order := by
  induction order with
  | nil => intro evs; simp [catMap]
  | cons a l ih =>
    intro evs
    simp only [List.foldl_cons, catMap]
    rw [streamStep_eq, ih]
    simp

theorem streamEvOf_no_meta_done (respOf : Str → HttpResponse) (verbose : Bool)
    (name : Str) (ev : Event) (h : ev ∈ streamEvOf respOf verbose name) :
    isMetaEv ev = false ∧ isDoneEv ev = false := by
  unfold streamEvOf at h
  revert h
  split
  · intro h
    rcases List.mem_singleton.mp h with rfl
    exact ⟨rfl, rfl⟩
  · cases verbose
    · intro h
      simp at h
    · intro h
      rcases List.mem_singleton.mp (by simpa using h) with rfl
      exact ⟨rfl, rfl⟩
  · intro h
    rcases List.mem_singleton.mp h with rfl
    exact ⟨rfl, rfl⟩

theorem mem_catMap {α β : Type} (g : α → List β) (l : List α) (x : β) :
    x ∈ catMap g l ↔ ∃ a, a ∈ l ∧ x ∈ g a := by
  induction l with
  | nil => simp [catMap]
  | cons a l ih =>
    simp only [catMap, List.mem_append, ih, List.mem_cons]
    constructor
    · rintro (h | ⟨b, hb, hx⟩)
      · exact ⟨a, Or.inl rfl, h⟩
      · exact ⟨b, Or.inr hb, hx⟩
    · rintro ⟨b, (rfl | hb), hx⟩
      · exact Or.inl hx
      · exact Or.inr ⟨b, hb, hx⟩

theorem awCounterpart_involutive (m : Str) (h : endsAW m) :
    awCounterpart (awCounterpart m) = m := by
  rcases h with hA | hW
  · have hnW : ¬ m.getLast? = some 'W' := by
      rw [hA]
      intro hh
      exact absurd (Option.some.inj hh) (by decide)
    have hin : awCounterpart m = m.dropLast ++ ['W'] := by
      unfold awCounterpart
      rw [if_neg hnW]
    have hout : awCounterpart (m.dropLast ++ ['W']) =
        (m.dropLast ++ ['W']).dropLast ++ ['A'] := by
      unfold awCounterpart
      rw [if_pos (getLast?_concat_eq m.dropLast 'W')]
    rw [hin, hout, dropLast_concat_eq]
    exact eq_dropLast_concat m 'A' hA
  · have hin : awCounterpart m = m.dropLast ++ ['A'] := by
      unfold awCounterpart
      rw [if_pos hW]
    have hnW2 : ¬ (m.dropLast ++ ['A']).getLast? = some 'W' := by
      rw [getLast?_concat_eq]
      intro hh
      exact absurd (Option.some.inj hh) (by decide)
    have hout : awCounterpart (m.dropLast ++ ['A']) =
        (m.dropLast ++ ['A']).dropLast ++ ['W'] := by
      unfold awCounterpart
      rw [if_neg hnW2]
    rw [hin, hout, dropLast_concat_eq]
    exact eq_dropLast_concat m 'W' hW

/-! The claims. -/

/-- C1: for every run of the enrichment pipeline over a candidate list (the
completion order being any permutation of the submitted names), the final
report's key set is a subset of the submitted candidates, no key appears
twice, and no key maps to an empty-string description. -/
theorem C1_report_invariants (respOf : Str → HttpResponse) (verbose : Bool)
    (w : Nat) (names order : List Str) (hperm : order.Perm names) :
    (fetch_api_descriptions respOf verbose w order).1.map Prod.fst ⊆ names
    ∧ ((fetch_api_descriptions respOf verbose w order).1.map Prod.fst).Nodup
    ∧ ([] : Str) ∉ (fetch_api_descriptions respOf verbose w order).1.map Prod.snd := by
  rw [fetch_report]
  refine ⟨?_, ?_, ?_⟩
  · intro k hk
    rcases List.mem_map.mp hk with ⟨p, hp, rfl⟩
    rcases mem_report_fold respOf order [] p hp with h | ⟨nm, hnm, hc⟩
    · exact absurd h (List.not_mem_nil p)
    · have h1 : p.1 = nm := by rw [(check_api_hit nm (respOf nm) p hc).1]
      rw [h1]
      exact hperm.mem_iff.mp hnm
  · exact nodup_keys_fold respOf order [] (by simp)
  · intro hcontra
    rcases List.mem_map.mp hcontra with ⟨p, hp, hpe⟩
    rcases mem_report_fold respOf order [] p hp with h | ⟨nm, _, hc⟩
    · exact absurd h (List.not_mem_nil p)
    · exact (check_api_hit nm (respOf nm) p hc).2 hpe

/-- Witness for C1: a concrete run over the single candidate `XW` against a
source that describes every name. -/
theorem C1_report_invariants_witness :
    (fetch_api_descriptions respHit false 12 [nameXW]).1.map Prod.fst ⊆ [nameXW]
    ∧ ((fetch_api_descriptions respHit false 12 [nameXW]).1.map Prod.fst).Nodup
    ∧ ([] : Str) ∉ (fetch_api_descriptions respHit false 12 [nameXW]).1.map Prod.snd :=
  C1_report_invariants respHit false 12 [nameXW] [nameXW] (List.Perm.refl _)

/-- C2 counterexample: the import name `W` consists only of the one-character
suffix (its prefix before the suffix is empty), yet `_collect_import_names`
synthesizes the counterpart `A` for it, so the candidates added for the
`W` import are not only the name itself — refuting the claim as stated. -/
theorem C2_counterexample :
    _collect_import_names peW = [['W'], ['A']]
    ∧ (['A'] : Str) ∈ _collect_import_names peW
    ∧ (['A'] : Str) ≠ (['W'] : Str) := by
  refine ⟨by decide, by decide, by decide⟩

/-- C2 amended: for every decoded, trimmed, non-empty import name that does
not end in `A` or `W`, no counterpart is synthesized — every candidate is
either a named import itself or the A/W counterpart of a named import that
does end in `A` or `W`.  (Names that are exactly the one-letter suffix `A`
or `W` do get a counterpart with empty prefix synthesized, as the
counterexample shows.) -/
theorem C2_no_foreign_candidates (pe : PE) (n : Str)
    (h : n ∈ _collect_import_names pe) :
    n ∈ namedImports pe
    ∨ ∃ m, m ∈ namedImports pe ∧ endsAW m ∧ n = awCounterpart m := by
  rcases (mem_collect_iff pe n).mp h with ⟨m, hm, rfl | ⟨hAW, rfl⟩⟩
  · exact Or.inl hm
  · exact Or.inr ⟨m, hm, hAW, rfl⟩

/-- Witness for the amended C2: the candidate `XA` of the PE importing only
`XW` is accounted for as a counterpart of the A/W-ending import `XW`. -/
theorem C2_no_foreign_candidates_witness :
    nameXA ∈ namedImports peXW
    ∨ ∃ m, m ∈ namedImports peXW ∧ endsAW m ∧ nameXA = awCounterpart m :=
  C2_no_foreign_candidates peXW nameXA (by decide)

/-- C3: the candidate set is closed under A/W counterpart exchange — for
every collected name ending in `A` or `W` (in particular those with a
non-empty prefix, as the claim states), the counterpart with the other
suffix letter is also collected. -/
theorem C3_counterpart_closure (pe : PE) (n : Str)
    (hmem : n ∈ _collect_import_names pe) (hAW : endsAW n)
    (hpre : n.dropLast ≠ []) :
    awCounterpart n ∈ _collect_import_names pe := by
  rcases (mem_collect_iff pe n).mp hmem with ⟨m, hm, rfl | ⟨hmAW, rfl⟩⟩
  · exact (mem_collect_iff pe (awCounterpart n)).mpr ⟨n, hm, Or.inr ⟨hAW, rfl⟩⟩
  · rw [awCounterpart_involutive m hmAW]
    exact (mem_collect_iff pe m).mpr ⟨m, hm, Or.inl rfl⟩

/-- Witness for C3: the counterpart of the collected candidate `XW` (with
non-empty prefix `X`) is collected for the PE importing only `XW`. -/
theorem C3_counterpart_closure_witness :
    awCounterpart nameXW ∈ _collect_import_names peXW :=
  C3_counterpart_closure peXW nameXW (by decide) (by decide) (by decide)

/-- C4: for a candidate submitted once, the notifications about it in the
whole progress trace are exactly the single classification of its own
resolved lookup — a hit, a miss only when verbose (silently skipped
otherwise), or an error carrying the message — and an erroring (or missing)
lookup contributes no entry to the final report while the rest of the batch
is still processed (the trace equation holds for every candidate
simultaneously). -/
theorem C4_per_symbol_notification (respOf : Str → HttpResponse)
    (verbose : Bool) (w : Nat) (names order : List Str) (name : Str)
    (hperm : order.Perm names) (hnodup : names.Nodup) (hmem : name ∈ names) :
    (fetch_api_descriptions respOf verbose w order).2.filter
        (fun ev => notifName ev == name) =
      (match check_api name (respOf name) with
        | Except.ok (some r) => [Progress.hit name (dget r name)]
        | Except.ok none => if verbose then [Progress.miss name] else []
        | Except.error e => [Progress.error name e])
    ∧ findVal (fetch_api_descriptions respOf verbose w order).1 name =
        hitVal respOf name := by
  have hordnd : order.Nodup := hperm.nodup_iff.mpr hnodup
  have hordmem : name ∈ order := hperm.mem_iff.mpr hmem
  constructor
  · rw [fetch_trace, filter_catMap]
    have hsingle :
        catMap (fun nm => (notifOf respOf verbose nm).filter
          (fun ev => notifName ev == name)) order =
        (notifOf respOf verbose name).filter (fun ev => notifName ev == name) := by
      refine catMap_single _ name order hordnd hordmem ?_
      intro a _ hane
      rw [filter_notifOf, if_neg hane]
    rw [hsingle, filter_notifOf, if_pos rfl]
    rfl
  · rw [fetch_report, findVal_fold]
    by_cases hs : (hitVal respOf name).isSome
    · rw [if_pos ⟨hordmem, hs⟩]
    · rw [if_neg (fun hc => hs hc.2)]
      cases hv : hitVal respOf name with
      | none => rfl
      | some v => rw [hv] at hs; simp at hs

/-- Witness for C4: one candidate against an erroring source — one error
notification, no report entry. -/
theorem C4_per_symbol_notification_witness :
    (fetch_api_descriptions respErr true 12 [nameXW]).2.filter
        (fun ev => notifName ev == nameXW) =
      (match check_api nameXW (respErr nameXW) with
        | Except.ok (some r) => [Progress.hit nameXW (dget r nameXW)]
        | Except.ok none => if (true : Bool) then [Progress.miss nameXW] else []
        | Except.error e => [Progress.error nameXW e])
    ∧ findVal (fetch_api_descriptions respErr true 12 [nameXW]).1 nameXW =
        hitVal respErr nameXW :=
  C4_per_symbol_notification respErr true 12 [nameXW] [nameXW] nameXW
    (List.Perm.refl _) (by decide) (by decide)

/-- C5: `check_api` answers "no description" (`None`), not an error, when
the expected content region is absent (fewer than two selected nodes) or
blank after stripping, and raises for every non-success (4xx/5xx) transport
status. -/
theorem C5_miss_vs_error (name : Str) (resp : HttpResponse) :
    (statusRaises resp.status = false →
      (resp.details.length < 2 ∨ pyStrip (resp.details.getD 1 []) = []) →
      check_api name resp = Except.ok none)
    ∧ (statusRaises resp.status = true →
      check_api name resp = Except.error (httpErrorMsg resp.status)) := by
  constructor
  · intro hok hmiss
    unfold check_api
    rw [if_neg (by simp [hok])]
    by_cases hlen : resp.details = [] ∨ resp.details.length < 2
    · rw [if_pos hlen]
    · rcases hmiss with hmiss | hmiss
      · exact absurd (Or.inr hmiss) hlen
      · rw [if_neg hlen]
        simp only []
        rw [if_pos hmiss]
  · intro hbad
    unfold check_api
    rw [if_pos (by simp [hbad])]

/-- Witness for C5: a 200 response with a blank content region is a miss; a
500 response is an error. -/
theorem C5_miss_vs_error_witness :
    check_api nameXW respBlank = Except.ok none
    ∧ check_api nameXW (respErr nameXW) = Except.error (httpErrorMsg 500) :=
  ⟨(C5_miss_vs_error nameXW respBlank).1 (by decide) (Or.inr (by decide)),
   (C5_miss_vs_error nameXW (respErr nameXW)).2 (by decide)⟩

/-- C6: a parseable binary with zero named imports (ordinal-only entries or
no import directory) yields an empty candidate set and an empty report with
no exception raised, while an unparseable binary propagates the parse error — an
outcome distinct from the empty-report one, with no partial report. -/
theorem C6_parse_error_vs_empty_imports (e : Str) (pe : PE)
    (respOf : Str → HttpResponse) (v : Bool) (order : List Str)
    (hni : namedImports pe = [])
    (hord : order.Perm (_collect_import_names pe)) :
    analyze_pe (Except.ok pe) respOf v order = Except.ok []
    ∧ analyze_pe (Except.error e) respOf v order = Except.error e
    ∧ analyze_pe (Except.error e) respOf v order ≠
        analyze_pe (Except.ok pe) respOf v order := by
  have hc : _collect_import_names pe = [] := collect_empty pe hni
  rw [hc] at hord
  have hord2 : order = [] := List.Perm.eq_nil hord
  subst hord2
  refine ⟨rfl, rfl, ?_⟩
  intro hcontra
  exact Except.noConfusion hcontra

/-- Witness for C6: a PE whose only import is ordinal-only, against a
concrete parse-error string. -/
theorem C6_parse_error_vs_empty_imports_witness :
    analyze_pe (Except.ok peOrdinal) respMiss false [] = Except.ok []
    ∧ analyze_pe (Except.error ['b', 'a', 'd']) respMiss false [] =
        Except.error ['b', 'a', 'd']
    ∧ analyze_pe (Except.error ['b', 'a', 'd']) respMiss false [] ≠
        analyze_pe (Except.ok peOrdinal) respMiss false [] :=
  C6_parse_error_vs_empty_imports ['b', 'a', 'd'] peOrdinal respMiss false []
    (by decide) (by decide)

/-- C7: the final report mapping is independent of the worker-pool size —
with the same deterministic source, a run with `max_workers = 1` and a run
with `max_workers = 12` (each under any completion order of the same
candidate set) assign every name the same description. -/
theorem C7_pool_size_independence (respOf : Str → HttpResponse)
    (verbose : Bool) (names o1 o2 : List Str)
    (h1 : o1.Perm names) (h2 : o2.Perm names) (n : Str) :
    findVal (fetch_api_descriptions respOf verbose 1 o1).1 n =
      findVal (fetch_api_descriptions respOf verbose 12 o2).1 n := by
  rw [fetch_report, fetch_report, findVal_fold, findVal_fold]
  by_cases hn : n ∈ names ∧ (hitVal respOf n).isSome
  · rw [if_pos ⟨h1.mem_iff.mpr hn.1, hn.2⟩, if_pos ⟨h2.mem_iff.mpr hn.1, hn.2⟩]
  · rw [if_neg (fun hc => hn ⟨h1.mem_iff.mp hc.1, hc.2⟩),
        if_neg (fun hc => hn ⟨h2.mem_iff.mp hc.1, hc.2⟩)]

/-- Witness for C7: two different completion orders of the candidate set
`{XW, XA}` agree on the entry for `XW`. -/
theorem C7_pool_size_independence_witness :
    findVal (fetch_api_descriptions respHit false 1 [nameXW, nameXA]).1 nameXW =
      findVal (fetch_api_descriptions respHit false 12 [nameXA, nameXW]).1 nameXW :=
  C7_pool_size_independence respHit false [nameXW, nameXA] [nameXW, nameXA]
    [nameXA, nameXW] (by decide) (by decide) nameXW

/-- C8: for every binary that parses, the event stream starts with the one
`meta` event (carrying the candidate count, hence before any `hit` or `log`
event), ends with the one `done` event, and contains exactly one of each. -/
theorem C8_stream_event_shape (pe : PE) (respOf : Str → HttpResponse)
    (verbose : Bool) (order : List Str) (evs : List Event)
    (h : stream_analyze_uploaded_pe_bytes (Except.ok pe) respOf verbose order =
      Except.ok evs) :
    evs.head? = some (Event.meta (_collect_import_names pe).length)
    ∧ evs.getLast? = some Event.done
    ∧ evs.filter isMetaEv = [Event.meta (_collect_import_names pe).length]
    ∧ evs.filter isDoneEv = [Event.done] := by
  simp only [stream_analyze_uploaded_pe_bytes] at h
  have hevs : evs = Event.meta (_collect_import_names pe).length ::
      (order.foldl (streamStep respOf verbose) [] ++ [Event.done]) :=
    (Except.ok.inj h).symm
  subst hevs
  have hbody : ∀ ev ∈ order.foldl (streamStep respOf verbose) [],
      isMetaEv ev = false ∧ isDoneEv ev = false := by
    rw [stream_fold]
    intro ev hev
    rw [List.nil_append] at hev
    rcases (mem_catMap (streamEvOf respOf verbose) order ev).mp hev with ⟨a, _, hin⟩
    exact streamEvOf_no_meta_done respOf verbose a ev hin
  have hmNil : (order.foldl (streamStep respOf verbose) []).filter isMetaEv = [] :=
    List.filter_eq_nil_iff.mpr (fun ev hev => by simp [(hbody ev hev).1])
  have hdNil : (order.foldl (streamStep respOf verbose) []).filter isDoneEv = [] :=
    List.filter_eq_nil_iff.mpr (fun ev hev => by simp [(hbody ev hev).2])
  refine ⟨rfl, ?_, ?_, ?_⟩
  · rw [show Event.meta (_collect_import_names pe).length ::
        (order.foldl (streamStep respOf verbose) [] ++ [Event.done]) =
        (Event.meta (_collect_import_names pe).length ::
          order.foldl (streamStep respOf verbose) []) ++ [Event.done] from rfl]
    exact getLast?_concat_eq _ _
  · simp [List.filter_cons, List.filter_append, hmNil, isMetaEv]
  · simp [List.filter_cons, List.filter_append, hdNil, isDoneEv]

/-- Witness for C8: the concrete stream of the PE importing only `XW`,
against a source that knows no symbol, in verbose mode. -/
theorem C8_stream_event_shape_witness :
    ([Event.meta 2, Event.log (missLine nameXW), Event.log (missLine nameXA),
        Event.done].head? =
      some (Event.meta (_collect_import_names peXW).length))
    ∧ ([Event.meta 2, Event.log (missLine nameXW), Event.log (missLine nameXA),
        Event.done].getLast? = some Event.done)
    ∧ ([Event.meta 2, Event.log (missLine nameXW), Event.log (missLine nameXA),
        Event.done].filter isMetaEv =
      [Event.meta (_collect_import_names peXW).length])
    ∧ ([Event.meta 2, Event.log (missLine nameXW), Event.log (missLine nameXA),
        Event.done].filter isDoneEv = [Event.done]) :=
  C8_stream_event_shape peXW respMiss true [nameXW, nameXA]
    [Event.meta 2, Event.log (missLine nameXW), Event.log (missLine nameXA),
      Event.done] (by rfl)

/-- C9 counterexample: the empty symbol string is falsy in Python, so
`api_lookup` rejects it with the 400 missing-field response — not the empty
report the claim promises. -/
theorem C9_counterexample :
    api_lookup (ApiField.str []) respMiss [] = LookupResp.badRequest missingApiMsg
    ∧ LookupResp.badRequest missingApiMsg ≠ LookupResp.results [] :=
  ⟨rfl, by decide⟩

/-- C9 amended: for every non-empty symbol string that tokenizes to zero
names (e.g. whitespace-only), the route returns an empty report, and the
description source is never contacted — the outcome is the same for every
source environment and completion order.  (The empty string itself is
instead rejected as a missing-field request error, as the counterexample
shows.) -/
theorem C9_blank_input_no_lookup (s : Str) (respOf : Str → HttpResponse)
    (order : List Str) (hne : s ≠ []) (htok : pyTokens s = []) :
    api_lookup (ApiField.str s) respOf order = LookupResp.results [] := by
  have hfal : s.isEmpty = false := by
    cases s with
    | nil => exact absurd rfl hne
    | cons a t => rfl
  unfold api_lookup
  rw [if_neg (by simp [pyFalsy, hfal])]
  simp [htok]

/-- Witness for the amended C9: a single-space symbol string. -/
theorem C9_blank_input_no_lookup_witness :
    api_lookup (ApiField.str [' ']) respHit [] = LookupResp.results [] :=
  C9_blank_input_no_lookup [' '] respHit [] (by decide) (by decide)

/-- C10: when the bytes do not parse as a PE, the parse error is raised
before the generator's first yield, so the stream produces no event at all
(no `meta`, no `done`) and the error propagates to the caller instead of
being reported as a stream event. -/
theorem C10_parse_error_no_events (e : Str) (respOf : Str → HttpResponse)
    (verbose : Bool) (order : List Str) :
    stream_analyze_uploaded_pe_bytes (Except.error e) respOf verbose order =
      Except.error e :=
  rfl


end APie
